import Mathlib

/-
Verification of the custom_containers library: a bounded growable buffer
(`cc::buffer`) and a circular FIFO queue (`cc::fifo`), shallowly embedded
from the C++ sources.

Modelling conventions:
* `std::array<Tp, Nm>` storage becomes a `List α`; the template capacity
  `Nm` (returned by `max_size()`) is the length of that list.
* The `std::size_t` cursors become `Nat`.  All claims concern reachable
  states, on which the cursors stay far below 2^64, so machine wraparound
  never occurs; `Nat` subtraction is used where the source subtracts.
* A C++ method that can call `std::__throw_out_of_range` becomes a
  function into `Option`: `none` models the throw.  Since the source
  performs every range check before any mutation, returning `none`
  without constructing a successor state is a faithful rendition of
  "throws and leaves the state unchanged".
* Reads of raw storage (`operator[]`, `at`) use `List.getD` / `List.get?`.
-/

namespace CC

/-- Circular FIFO state: `storage` models the underlying `std::array`,
`head` and `tail` the `m_head` / `m_tail` cursors (`m_head` is the index of
the next slot to write, `m_tail` of the next slot to read). -/
structure Fifo (α : Type) where
  storage : List α
  head : Nat
  tail : Nat
deriving DecidableEq, Repr

variable {α : Type}

/-- Capacity `Nm`, i.e. `std::array::max_size()`. -/
def max_size (s : Fifo α) : Nat :=
  s.storage.length

/-- Source: `size() = static_cast<std::size_t>(m_head - m_tail)`. -/
def size (s : Fifo α) : Nat :=
  s.head - s.tail

/-- Source: `empty() = (m_head == m_tail)`. -/
def isEmpty (s : Fifo α) : Prop :=
  s.head = s.tail

instance (s : Fifo α) : Decidable (isEmpty s) := by
  unfold isEmpty
  infer_instance

/-- Source: `free() = max_size() - size()`. -/
def free (s : Fifo α) : Nat :=
  max_size s - size s

/-- Source: `full() = (m_head == m_tail + max_size())`. -/
def full (s : Fifo α) : Prop :=
  s.head = s.tail + max_size s

instance (s : Fifo α) : Decidable (full s) := by
  unfold full
  infer_instance

/-- Source: `head_modulo() = m_head % max_size()`. -/
def head_modulo (s : Fifo α) : Nat :=
  s.head % max_size s

/-- Source `push(v)`: throws when `full()`, otherwise writes `v` at
physical slot `head_modulo()` and increments `m_head` (no normalization on
the push side). -/
def push (s : Fifo α) (v : α) : Option (Fifo α) :=
  if full s then none
  else some ⟨s.storage.set (head_modulo s) v, s.head + 1, s.tail⟩

/-- Source `increment_tail(incr)`: adds `incr` to `m_tail`, and when the
new tail reaches or exceeds `max_size()` subtracts `max_size()` from both
cursors. -/
def increment_tail (s : Fifo α) (incr : Nat) : Fifo α :=
  if max_size s ≤ s.tail + incr then
    ⟨s.storage, s.head - max_size s, s.tail + incr - max_size s⟩
  else
    ⟨s.storage, s.head, s.tail + incr⟩

/-- Source `pop()`: throws when `empty()`, otherwise reads the raw slot
`m_tail` (no modulo at read time) and advances the tail via
`increment_tail()`. -/
def pop [Inhabited α] (s : Fifo α) : Option (α × Fifo α) :=
  if s.head = s.tail then none
  else some (s.storage.getD s.tail default, increment_tail s 1)

/-- Model of `std::copy(src, src + k, dst + start)`: overwrite `dst`
starting at index `start` with the elements of `src`. -/
def copy_to (dst : List α) (start : Nat) : List α → List α
  | [] => dst
  | v :: rest => copy_to (dst.set start v) (start + 1) rest

/-- Source `push_list(begin, end)`: throws when `free() < n`; otherwise
copies the first `n1 = min n (max_size() - head_modulo())` elements to the
physical slots starting at `head_modulo()`, the remaining `n - n1`
elements to the physical slots starting at 0, and advances `m_head` by `n`
(no normalization). -/
def push_list (s : Fifo α) (l : List α) : Option (Fifo α) :=
  if free s < l.length then none
  else
    let n1 := min l.length (max_size s - head_modulo s)
    some ⟨copy_to (copy_to s.storage (head_modulo s) (l.take n1)) 0 (l.drop n1),
          s.head + l.length, s.tail⟩

/-- Model of `std::copy(src + start, src + start + k, dst)`: read `k`
consecutive raw slots of `src` starting at `start`. -/
def read_from [Inhabited α] (src : List α) (start : Nat) : Nat → List α
  | 0 => []
  | k + 1 => src.getD start default :: read_from src (start + 1) k

/-- Source `pop_list(dst, n)`: throws when `n > 0 && n > size()`; when
`n == 0` it defaults to the whole current `size()`.  Copies
`n1 = min n (max_size() - m_tail)` raw slots starting at `m_tail`, then the
remaining `n - n1` slots starting at 0, and advances the tail via
`increment_tail(n)`.  The returned list is the sequence written to the
destination. -/
def pop_list [Inhabited α] (s : Fifo α) (n0 : Nat) : Option (List α × Fifo α) :=
  if 0 < n0 ∧ size s < n0 then none
  else
    let n := if n0 = 0 then size s else n0
    let n1 := min n (max_size s - s.tail)
    some (read_from s.storage s.tail n1 ++ read_from s.storage 0 (n - n1),
          increment_tail s n)

/-- Source `clear()`: resets both cursors to 0, storage untouched. -/
def clear (s : Fifo α) : Fifo α :=
  ⟨s.storage, 0, 0⟩

/-- Source `begin()`: returns an iterator positioned at `m_tail`; it has
no side effect on the state.  Modelled as the returned cursor index paired
with the (unchanged) state. -/
def beginIter (s : Fifo α) : Nat × Fifo α :=
  (s.tail, s)

/-- Source `end()`: executes `m_tail += size()` and returns `m_head`: the
end-of-iteration query consumes the available items.  Modelled as the
returned cursor index paired with the mutated state. -/
def endIter (s : Fifo α) : Nat × Fifo α :=
  (s.head, ⟨s.storage, s.head, s.tail + size s⟩)

/-- Source `pop()` of the alternate implementation (second `fifo` variant
in the repository): advances `m_tail` by one and, when it reaches
`max_size()`, sets `m_tail = 0` and subtracts `max_size()` from `m_head`. -/
def pop_b [Inhabited α] (s : Fifo α) : Option (α × Fifo α) :=
  if s.head = s.tail then none
  else
    some (s.storage.getD s.tail default,
      if max_size s ≤ s.tail + 1 then ⟨s.storage, s.head - max_size s, 0⟩
      else ⟨s.storage, s.head, s.tail + 1⟩)

/-- Abstraction function: the logical contents of the FIFO, oldest first;
element `i` lives at physical slot `(tail + i) % max_size`. -/
def toList [Inhabited α] (s : Fifo α) : List α :=
  (List.range (size s)).map fun i => s.storage.getD ((s.tail + i) % max_size s) default

/-- Cursor invariant maintained by the queue: the cursors never cross and
never drift more than the capacity apart (`0 <= head - tail <= N`). -/
def Inv (s : Fifo α) : Prop :=
  s.tail ≤ s.head ∧ s.head ≤ s.tail + max_size s

instance (s : Fifo α) : Decidable (Inv s) := by
  unfold Inv
  infer_instance

/-- Strengthened invariant: additionally the tail cursor stays inside the
physical range `[0, N)`. -/
def InvT (s : Fifo α) : Prop :=
  Inv s ∧ s.tail < max_size s

instance (s : Fifo α) : Decidable (InvT s) := by
  unfold InvT
  infer_instance

/-- The public operations of the fifo, as an operation alphabet. -/
inductive FOp (α : Type) where
  | push (v : α)
  | pop
  | pushL (l : List α)
  | popL (n : Nat)
  | clear
  | beginq
  | endq
deriving DecidableEq, Repr

/-- Effect of one public operation on the state; `none` when the source
would throw `OutOfRange`. -/
def applyOp [Inhabited α] (s : Fifo α) : FOp α → Option (Fifo α)
  | .push v => push s v
  | .pop => (pop s).map Prod.snd
  | .pushL l => push_list s l
  | .popL n => (pop_list s n).map Prod.snd
  | .clear => some (clear s)
  | .beginq => some (beginIter s).2
  | .endq => some (endIter s).2

/-- States reachable from a freshly constructed fifo (cursors at 0,
arbitrary storage contents) by any sequence of successful public
operations. -/
inductive Reachable [Inhabited α] : Fifo α → Prop
  | start (st : List α) : Reachable ⟨st, 0, 0⟩
  | step {s s' : Fifo α} (op : FOp α) : Reachable s → applyOp s op = some s' →
      Reachable s'

/-- States reachable using every public operation except the consuming
end-of-iteration query `endq`. -/
inductive ReachableCore [Inhabited α] : Fifo α → Prop
  | start (st : List α) : ReachableCore ⟨st, 0, 0⟩
  | step {s s' : Fifo α} (op : FOp α) : ReachableCore s → op ≠ FOp.endq →
      applyOp s op = some s' → ReachableCore s'

/-- Bounded buffer state (`cc::buffer`): fixed storage plus the `m_used`
watermark. -/
structure Buffer (α : Type) where
  storage : List α
  used : Nat
deriving DecidableEq, Repr

namespace Buffer

/-- Capacity `Nm` of the buffer. -/
def max_size (b : Buffer α) : Nat :=
  b.storage.length

/-- Source: `size() = m_used`. -/
def size (b : Buffer α) : Nat :=
  b.used

/-- Source `get(n)`: throws when `n > m_used`, otherwise returns `at(n)`
(which itself throws when `n >= max_size()`).  Note the source comparison
is strict: index `n == m_used` passes the check. -/
def get (b : Buffer α) (n : Nat) : Option α :=
  if b.used < n then none else b.storage[n]?

/-- Source `assign(n, v)`: writes through `at(n)` (throws when
`n >= max_size()`), then sets `m_used = max(m_used, n + 1)`. -/
def assign (b : Buffer α) (n : Nat) (v : α) : Option (Buffer α) :=
  if n < b.storage.length then some ⟨b.storage.set n v, max b.used (n + 1)⟩
  else none

end Buffer

/-
Helper lemmas about lists and modular arithmetic.
-/

lemma getD_set_self (l : List α) (i : Nat) (v d : α) (h : i < l.length) :
    (l.set i v).getD i d = v := by
  induction l generalizing i with
  | nil => simp at h
  | cons x xs ih =>
    cases i with
    | zero => rfl
    | succ n =>
      simp only [List.set, List.getD_cons_succ]
      exact ih n (by simpa using h)

lemma getD_set_ne (l : List α) (i j : Nat) (v d : α) (h : i ≠ j) :
    (l.set i v).getD j d = l.getD j d := by
  induction l generalizing i j with
  | nil => simp [List.set]
  | cons x xs ih =>
    cases i with
    | zero =>
      cases j with
      | zero => exact absurd rfl h
      | succ m => rfl
    | succ n =>
      cases j with
      | zero => rfl
      | succ m =>
        simp only [List.set, List.getD_cons_succ]
        exact ih n m (by omega)

lemma getD_ge_length [Inhabited α] (l : List α) (i : Nat) (h : l.length ≤ i) :
    l.getD i default = default := by
  simp [List.getD, List.getElem?_eq_none h]

/-- Distinct indices less than `n` apart have distinct residues mod `n`. -/
lemma mod_ne_of_lt_of_sub_lt {a b n : Nat} (hab : a < b) (hd : b - a < n) :
    a % n ≠ b % n := by
  intro h
  have hdvd : n ∣ b - a := (Nat.modEq_iff_dvd' (Nat.le_of_lt hab)).mp h
  have := Nat.eq_zero_of_dvd_of_lt hdvd hd
  omega

lemma copy_to_length (src : List α) : ∀ (dst : List α) (start : Nat),
    (copy_to dst start src).length = dst.length := by
  induction src with
  | nil => intro dst start; rfl
  | cons v rest ih =>
    intro dst start
    rw [copy_to, ih, List.length_set]

lemma copy_to_getD [Inhabited α] (src : List α) : ∀ (dst : List α) (start p : Nat),
    p < dst.length →
    (copy_to dst start src).getD p default =
      if start ≤ p ∧ p < start + src.length then src.getD (p - start) default
      else dst.getD p default := by
  induction src with
  | nil =>
    intro dst start p _
    rw [copy_to, if_neg (by simp only [List.length_nil]; omega)]
  | cons v rest ih =>
    intro dst start p hp
    rw [copy_to, ih (dst.set start v) (start + 1) p (by simpa using hp)]
    simp only [List.length_cons]
    by_cases h1 : start + 1 ≤ p ∧ p < start + 1 + rest.length
    · rw [if_pos h1, if_pos (by omega)]
      have hps : p - start = (p - (start + 1)) + 1 := by omega
      rw [hps, List.getD_cons_succ]
    · rw [if_neg h1]
      by_cases h2 : p = start
      · subst h2
        rw [getD_set_self dst p v default hp, if_pos (by omega)]
        simp
      · rw [getD_set_ne dst start p v default (fun h => h2 h.symm),
          if_neg (by omega)]

lemma read_from_length [Inhabited α] (src : List α) : ∀ (k start : Nat),
    (read_from src start k).length = k := by
  intro k
  induction k with
  | zero => intro start; rfl
  | succ k ih => intro start; rw [read_from, List.length_cons, ih]

lemma read_from_getElem? [Inhabited α] (src : List α) : ∀ (k start i : Nat),
    (read_from src start k)[i]? =
      if i < k then some (src.getD (start + i) default) else none := by
  intro k
  induction k with
  | zero => intro start i; simp [read_from]
  | succ k ih =>
    intro start i
    cases i with
    | zero => simp [read_from]
    | succ j =>
      rw [read_from, List.getElem?_cons_succ, ih (start + 1) j]
      have h : start + 1 + j = start + (j + 1) := by omega
      by_cases hj : j < k
      · rw [if_pos hj, if_pos (by omega), h]
      · rw [if_neg hj, if_neg (by omega)]

lemma toList_length [Inhabited α] (s : Fifo α) : (toList s).length = size s := by
  simp [toList]

lemma toList_getElem? [Inhabited α] (s : Fifo α) (i : Nat) :
    (toList s)[i]? =
      if i < size s then
        some (s.storage.getD ((s.tail + i) % max_size s) default)
      else none := by
  by_cases h : i < size s
  · rw [if_pos h]
    rw [toList, List.getElem?_map]
    simp [List.getElem?_range h]
  · rw [if_neg h, List.getElem?_eq_none]
    rw [toList_length]
    omega

lemma increment_tail_storage (s : Fifo α) (k : Nat) :
    (increment_tail s k).storage = s.storage := by
  unfold increment_tail
  split <;> rfl

lemma increment_tail_spec (s : Fifo α) (k : Nat) (hInv : Inv s) (hk : k ≤ size s) :
    Inv (increment_tail s k) ∧
    size (increment_tail s k) = size s - k ∧
    (increment_tail s k).storage = s.storage ∧
    max_size (increment_tail s k) = max_size s ∧
    (s.tail < max_size s → (increment_tail s k).tail < max_size s) ∧
    ∀ i, ((increment_tail s k).tail + i) % max_size (increment_tail s k) =
      (s.tail + k + i) % max_size s := by
  obtain ⟨h1, h2⟩ := hInv
  simp only [size] at hk
  simp only [max_size] at h2
  unfold increment_tail
  split
  · rename_i hge
    simp only [max_size] at hge
    have hhead : s.storage.length ≤ s.head := by omega
    refine ⟨⟨?_, ?_⟩, ?_, rfl, rfl, ?_, ?_⟩
    · show s.tail + k - s.storage.length ≤ s.head - s.storage.length
      omega
    · show s.head - s.storage.length ≤ s.tail + k - s.storage.length + s.storage.length
      omega
    · show s.head - s.storage.length - (s.tail + k - s.storage.length) =
        s.head - s.tail - k
      omega
    · show s.tail < s.storage.length → s.tail + k - s.storage.length < s.storage.length
      omega
    · intro i
      show (s.tail + k - s.storage.length + i) % s.storage.length =
        (s.tail + k + i) % s.storage.length
      have h3 : s.tail + k + i = (s.tail + k - s.storage.length + i) + s.storage.length := by
        omega
      rw [h3, Nat.add_mod_right]
  · rename_i hlt
    simp only [max_size] at hlt
    refine ⟨⟨?_, ?_⟩, ?_, rfl, rfl, ?_, fun i => rfl⟩
    · show s.tail + k ≤ s.head
      omega
    · show s.head ≤ s.tail + k + s.storage.length
      omega
    · show s.head - (s.tail + k) = s.head - s.tail - k
      omega
    · show s.tail < s.storage.length → s.tail + k < s.storage.length
      omega

/-- A successful `push` appends the pushed value to the logical contents. -/
lemma push_spec [Inhabited α] (s : Fifo α) (v : α) (hInv : Inv s) (hnf : ¬ full s) :
    ∃ s', push s v = some s' ∧ toList s' = toList s ++ [v] ∧ Inv s' ∧
      s'.tail = s.tail ∧ s'.head = s.head + 1 ∧
      s'.storage = s.storage.set (head_modulo s) v ∧
      max_size s' = max_size s := by
  obtain ⟨h1, h2⟩ := hInv
  simp only [max_size] at h2
  have hne : s.head ≠ s.tail + s.storage.length := by
    simpa [full, max_size] using hnf
  have hsz : s.head < s.tail + s.storage.length := by omega
  have hN : 0 < s.storage.length := by omega
  refine ⟨⟨s.storage.set (head_modulo s) v, s.head + 1, s.tail⟩,
    by rw [push, if_neg hnf], ?_, ⟨?_, ?_⟩, rfl, rfl, rfl, ?_⟩
  · apply List.ext_getElem?
    intro i
    have hL : (⟨s.storage.set (head_modulo s) v, s.head + 1, s.tail⟩ : Fifo α).storage.length
        = s.storage.length := by
      simp
    have hsz' : size (⟨s.storage.set (head_modulo s) v, s.head + 1, s.tail⟩ : Fifo α)
        = size s + 1 := by
      show s.head + 1 - s.tail = (s.head - s.tail) + 1
      omega
    rw [toList_getElem?, List.getElem?_append, toList_getElem?, toList_length, hsz']
    simp only [max_size, size] at hsz' ⊢
    rw [List.length_set]
    rcases Nat.lt_trichotomy i (s.head - s.tail) with hi | hi | hi
    · rw [if_pos (by omega), if_pos hi, if_pos hi]
      have hmod : (s.tail + i) % s.storage.length ≠ head_modulo s := by
        have := mod_ne_of_lt_of_sub_lt (a := s.tail + i) (b := s.head)
          (n := s.storage.length) (by omega) (by omega)
        simpa [head_modulo, max_size] using this
      rw [getD_set_ne _ _ _ _ _ (fun h => hmod h.symm)]
    · rw [if_pos (by omega), if_neg (by omega)]
      have h3 : s.tail + i = s.head := by omega
      have h4 : i - (s.head - s.tail) = 0 := by omega
      rw [h3, h4]
      show some ((s.storage.set (head_modulo s) v).getD (s.head % s.storage.length) default)
        = some v
      rw [show s.head % s.storage.length = head_modulo s from rfl,
        getD_set_self _ _ _ _ (by simpa [head_modulo, max_size] using Nat.mod_lt s.head hN)]
    · rw [if_neg (by omega), if_neg (by omega)]
      symm
      apply List.getElem?_eq_none
      simp only [List.length_cons, List.length_nil]
      omega
  · show s.tail ≤ s.head + 1
    omega
  · show s.head + 1 ≤ s.tail + max_size (⟨s.storage.set (head_modulo s) v,
      s.head + 1, s.tail⟩ : Fifo α)
    simp only [max_size, List.length_set]
    omega
  · show (s.storage.set (head_modulo s) v).length = s.storage.length
    simp

/-- A successful `pop` removes and returns the head of the logical
contents. -/
lemma pop_spec [Inhabited α] (s : Fifo α) (hInv : InvT s) (hne : s.head ≠ s.tail) :
    ∃ a s', pop s = some (a, s') ∧ toList s = a :: toList s' ∧ InvT s' ∧
      max_size s' = max_size s ∧ s' = increment_tail s 1 ∧
      a = s.storage.getD s.tail default := by
  obtain ⟨⟨h1, h2⟩, h3⟩ := hInv
  have hsz : 1 ≤ size s := by simp only [size]; omega
  obtain ⟨hInv', hszI, _, hmsI, htlI, hidxI⟩ :=
    increment_tail_spec s 1 ⟨h1, h2⟩ hsz
  refine ⟨s.storage.getD s.tail default, increment_tail s 1,
    by rw [pop, if_neg hne], ?_, ⟨hInv', by rw [hmsI]; exact htlI h3⟩, hmsI, rfl, rfl⟩
  apply List.ext_getElem?
  intro i
  rw [toList_getElem?]
  cases i with
  | zero =>
    rw [List.getElem?_cons_zero, if_pos (by omega)]
    rw [Nat.add_zero, Nat.mod_eq_of_lt h3]
  | succ j =>
    rw [List.getElem?_cons_succ, toList_getElem?, hszI, hidxI j,
      increment_tail_storage]
    have harith : s.tail + (j + 1) = s.tail + 1 + j := by omega
    by_cases hj : j + 1 < size s
    · rw [if_pos hj, if_pos (by omega), harith]
    · rw [if_neg hj, if_neg (by omega)]

/-- The two-run copy of `push_list` writes element `j` of the block at
physical slot `(hm + j) % length` (`hm` being the physical head slot). -/
lemma copy2_getD_new [Inhabited α] (st l : List α) (hm n1 : Nat)
    (hhm : hm < st.length) (hlen : l.length ≤ st.length)
    (hn1 : n1 = min l.length (st.length - hm)) :
    ∀ j, j < l.length →
      (copy_to (copy_to st hm (l.take n1)) 0 (l.drop n1)).getD
        ((hm + j) % st.length) default = l.getD j default := by
  intro j hj
  have htklen : (l.take n1).length = n1 := by
    rw [List.length_take]; omega
  have hdplen : (l.drop n1).length = l.length - n1 := List.length_drop n1 l
  by_cases hcase : j < n1
  · have hslot : (hm + j) % st.length = hm + j := Nat.mod_eq_of_lt (by omega)
    rw [hslot]
    rw [copy_to_getD _ _ _ _ (by rw [copy_to_length]; omega)]
    rw [if_neg (by rw [hdplen]; omega)]
    rw [copy_to_getD _ _ _ _ (by omega)]
    rw [if_pos (by rw [htklen]; omega)]
    have h5 : hm + j - hm = j := by omega
    rw [h5, List.getD_eq_getElem?_getD, List.getElem?_take, if_pos hcase,
      ← List.getD_eq_getElem?_getD]
  · have hslot : (hm + j) % st.length = j - n1 := by
      have h5 : hm + j = (j - n1) + st.length := by omega
      rw [h5, Nat.add_mod_right]
      exact Nat.mod_eq_of_lt (by omega)
    rw [hslot]
    rw [copy_to_getD _ _ _ _ (by rw [copy_to_length]; omega)]
    rw [if_pos (by rw [hdplen]; omega)]
    have h6 : j - n1 - 0 = j - n1 := by omega
    rw [h6, List.getD_eq_getElem?_getD, List.getElem?_drop,
      ← List.getD_eq_getElem?_getD]
    have h7 : n1 + (j - n1) = j := by omega
    rw [h7]

/-- The two-run copy of `push_list` leaves every physical slot outside the
two written regions unchanged. -/
lemma copy2_getD_old [Inhabited α] (st l : List α) (hm n1 : Nat)
    (hn1 : n1 = min l.length (st.length - hm)) (p : Nat) (hp : p < st.length)
    (hout1 : ¬ (hm ≤ p ∧ p < hm + n1)) (hout2 : ¬ p < l.length - n1) :
    (copy_to (copy_to st hm (l.take n1)) 0 (l.drop n1)).getD p default
      = st.getD p default := by
  have htklen : (l.take n1).length = n1 := by
    rw [List.length_take]; omega
  have hdplen : (l.drop n1).length = l.length - n1 := List.length_drop n1 l
  rw [copy_to_getD _ _ _ _ (by rw [copy_to_length]; omega)]
  rw [if_neg (by rw [hdplen]; omega)]
  rw [copy_to_getD _ _ _ _ hp]
  rw [if_neg (by rw [htklen]; omega)]

/-- A successful `push_list` appends the whole block to the logical
contents. -/
lemma push_list_spec [Inhabited α] (s : Fifo α) (l : List α) (hInv : Inv s)
    (hfree : l.length ≤ free s) :
    ∃ s', push_list s l = some s' ∧ toList s' = toList s ++ l ∧ Inv s' ∧
      s'.tail = s.tail ∧ s'.head = s.head + l.length ∧
      max_size s' = max_size s := by
  obtain ⟨h1, h2⟩ := hInv
  simp only [max_size] at h2
  have hfree' : l.length ≤ s.storage.length - (s.head - s.tail) := by
    simpa [free, size, max_size] using hfree
  have hguard : ¬ (free s < l.length) := not_lt.mpr hfree
  by_cases hl : l.length = 0
  · have hnil : l = [] := List.length_eq_zero.mp hl
    subst hnil
    refine ⟨s, ?_, by simp, ⟨h1, by simp only [max_size]; omega⟩, rfl, by simp, rfl⟩
    rw [push_list, if_neg hguard]
    simp [copy_to]
  · have hlpos : 0 < l.length := by omega
    have hL : 0 < s.storage.length := by omega
    have hhm : head_modulo s < s.storage.length := Nat.mod_lt _ hL
    have hhmdef : head_modulo s = s.head % s.storage.length := rfl
    have hlenle : l.length ≤ s.storage.length := by omega
    have hpl : push_list s l = some ⟨copy_to (copy_to s.storage (head_modulo s)
        (l.take (min l.length (max_size s - head_modulo s)))) 0
        (l.drop (min l.length (max_size s - head_modulo s))),
        s.head + l.length, s.tail⟩ := by
      rw [push_list, if_neg hguard]
    refine ⟨_, hpl, ?_, ⟨?_, ?_⟩, rfl, rfl, ?_⟩
    · apply List.ext_getElem?
      intro i
      rw [toList_getElem?, List.getElem?_append, toList_getElem?, toList_length]
      simp only [size, max_size, copy_to_length]
      by_cases hiA : i < s.head - s.tail
      · rw [if_pos (by omega), if_pos hiA, if_pos hiA]
        have hple : (s.tail + i) % s.storage.length < s.storage.length :=
          Nat.mod_lt _ hL
        congr 1
        refine copy2_getD_old s.storage l (head_modulo s) _ rfl _ hple ?_ ?_
        · intro hcon
          obtain ⟨ha, hb⟩ := hcon
          have hj0l : (s.tail + i) % s.storage.length - head_modulo s < l.length := by
            omega
          have hlt : s.tail + i <
              s.head + ((s.tail + i) % s.storage.length - head_modulo s) := by
            omega
          have hdiff : (s.head + ((s.tail + i) % s.storage.length - head_modulo s))
              - (s.tail + i) < s.storage.length := by
            omega
          apply mod_ne_of_lt_of_sub_lt hlt hdiff
          have h8 : (s.head + ((s.tail + i) % s.storage.length - head_modulo s))
              % s.storage.length = (s.tail + i) % s.storage.length := by
            rw [← Nat.mod_add_mod, ← hhmdef]
            have h9 : head_modulo s + ((s.tail + i) % s.storage.length - head_modulo s)
                = (s.tail + i) % s.storage.length := by omega
            rw [h9]
            exact Nat.mod_eq_of_lt hple
          rw [h8]
        · intro hcon
          have hple : (s.tail + i) % s.storage.length < s.storage.length :=
            Nat.mod_lt _ hL
          have hn1eq : min l.length (s.storage.length - head_modulo s)
              = s.storage.length - head_modulo s := by omega
          have hlt : s.tail + i < s.head +
              (min l.length (s.storage.length - head_modulo s)
                + (s.tail + i) % s.storage.length) := by omega
          have hdiff : (s.head + (min l.length (s.storage.length - head_modulo s)
              + (s.tail + i) % s.storage.length)) - (s.tail + i)
              < s.storage.length := by omega
          apply mod_ne_of_lt_of_sub_lt hlt hdiff
          have h8 : (s.head + (min l.length (s.storage.length - head_modulo s)
              + (s.tail + i) % s.storage.length)) % s.storage.length
              = (s.tail + i) % s.storage.length := by
            rw [← Nat.mod_add_mod, ← hhmdef]
            have h9 : head_modulo s + (min l.length (s.storage.length - head_modulo s)
                + (s.tail + i) % s.storage.length)
                = s.storage.length + (s.tail + i) % s.storage.length := by omega
            rw [h9, Nat.add_mod_left]
            exact Nat.mod_eq_of_lt hple
          rw [h8]
      · by_cases hiB : i < s.head + l.length - s.tail
        · rw [if_pos hiB, if_neg hiA]
          have hj : i - (s.head - s.tail) < l.length := by omega
          have harith : s.tail + i = s.head + (i - (s.head - s.tail)) := by omega
          rw [harith]
          have hkey := copy2_getD_new s.storage l (head_modulo s) _ hhm hlenle rfl
            (i - (s.head - s.tail)) hj
          have hconv : (head_modulo s + (i - (s.head - s.tail))) % s.storage.length
              = (s.head + (i - (s.head - s.tail))) % s.storage.length := by
            rw [hhmdef, Nat.mod_add_mod]
          rw [← hconv, hkey, List.getD_eq_getElem?_getD,
            List.getElem?_eq_getElem hj]
          rfl
        · rw [if_neg hiB, if_neg hiA]
          symm
          apply List.getElem?_eq_none
          omega
    · show s.tail ≤ s.head + l.length
      omega
    · show s.head + l.length ≤ s.tail + max_size (⟨copy_to (copy_to s.storage
        (head_modulo s) (l.take (min l.length (max_size s - head_modulo s)))) 0
        (l.drop (min l.length (max_size s - head_modulo s))),
        s.head + l.length, s.tail⟩ : Fifo α)
      simp only [max_size, copy_to_length]
      omega
    · show max_size (⟨copy_to (copy_to s.storage
        (head_modulo s) (l.take (min l.length (max_size s - head_modulo s)))) 0
        (l.drop (min l.length (max_size s - head_modulo s))),
        s.head + l.length, s.tail⟩ : Fifo α) = max_size s
      simp only [max_size, copy_to_length]

/-- The number of elements a `pop_list(dst, n0)` call actually removes
(`n0 == 0` defaults to the whole current size). -/
def pop_count (s : Fifo α) (n0 : Nat) : Nat :=
  if n0 = 0 then size s else n0

/-- A successful `pop_list` removes and returns the first `pop_count`
elements of the logical contents. -/
lemma pop_list_spec [Inhabited α] (s : Fifo α) (n0 : Nat) (hInv : InvT s)
    (hn0 : n0 = 0 ∨ n0 ≤ size s) :
    ∃ out s', pop_list s n0 = some (out, s') ∧
      out = (toList s).take (pop_count s n0) ∧
      toList s' = (toList s).drop (pop_count s n0) ∧
      InvT s' ∧ max_size s' = max_size s ∧
      s' = increment_tail s (pop_count s n0) := by
  have hInvs := hInv.1
  obtain ⟨⟨h1, h2⟩, h3⟩ := hInv
  have hszdef : size s = s.head - s.tail := rfl
  have hn : pop_count s n0 ≤ size s := by
    unfold pop_count
    rcases hn0 with h | h
    · simp [h]
    · split <;> omega
  have hguard : ¬ (0 < n0 ∧ size s < n0) := by
    rcases hn0 with h | h <;> omega
  obtain ⟨hInv', hszI, hstI, hmsI, htlI, hidxI⟩ :=
    increment_tail_spec s (pop_count s n0) hInvs hn
  have hpl : pop_list s n0 = some
      (read_from s.storage s.tail (min (pop_count s n0) (max_size s - s.tail)) ++
        read_from s.storage 0
          (pop_count s n0 - min (pop_count s n0) (max_size s - s.tail)),
       increment_tail s (pop_count s n0)) := by
    rw [pop_list, if_neg hguard]
    rfl
  refine ⟨_, _, hpl, ?_, ?_, ⟨hInv', by rw [hmsI]; exact htlI h3⟩, hmsI, rfl⟩
  · apply List.ext_getElem?
    intro i
    rw [List.getElem?_append, read_from_length, List.getElem?_take, toList_getElem?]
    by_cases hiA : i < min (pop_count s n0) (max_size s - s.tail)
    · rw [if_pos hiA, read_from_getElem?, if_pos hiA, if_pos (by omega),
        if_pos (by omega), Nat.mod_eq_of_lt (by omega)]
    · by_cases hiB : i < pop_count s n0
      · rw [if_neg hiA, read_from_getElem?, if_pos (by omega), if_pos hiB,
          if_pos (by omega)]
        have hmod : (s.tail + i) % max_size s
            = i - min (pop_count s n0) (max_size s - s.tail) := by
          have h5 : s.tail + i
              = (i - min (pop_count s n0) (max_size s - s.tail)) + max_size s := by
            omega
          rw [h5, Nat.add_mod_right]
          exact Nat.mod_eq_of_lt (by omega)
        rw [hmod, Nat.zero_add]
      · rw [if_neg hiA, if_neg hiB, read_from_getElem?, if_neg (by omega)]
  · apply List.ext_getElem?
    intro i
    rw [toList_getElem?, hszI, hidxI i, hstI, List.getElem?_drop, toList_getElem?]
    by_cases hi : i < size s - pop_count s n0
    · rw [if_pos hi, if_pos (by omega), Nat.add_assoc]
    · rw [if_neg hi, if_neg (by omega)]

/-- Every successful public operation preserves the cursor invariant
`0 <= head - tail <= N` and the capacity. -/
lemma inv_applyOp [Inhabited α] (s s' : Fifo α) (op : FOp α) (hInv : Inv s)
    (h : applyOp s op = some s') : Inv s' ∧ max_size s' = max_size s := by
  obtain ⟨h1, h2⟩ := hInv
  have h2' : s.head ≤ s.tail + s.storage.length := by
    simpa [max_size] using h2
  cases op with
  | push v =>
    by_cases hf : full s
    · simp [applyOp, push, hf] at h
    · have hne : s.head ≠ s.tail + s.storage.length := by
        simpa [full, max_size] using hf
      simp only [applyOp, push, if_neg hf, Option.some.injEq] at h
      subst h
      refine ⟨⟨?_, ?_⟩, ?_⟩
      · show s.tail ≤ s.head + 1
        omega
      · show s.head + 1 ≤ s.tail + (s.storage.set (head_modulo s) v).length
        rw [List.length_set]
        omega
      · show (s.storage.set (head_modulo s) v).length = s.storage.length
        simp
  | pop =>
    by_cases he : s.head = s.tail
    · simp [applyOp, pop, he] at h
    · simp only [applyOp, pop, if_neg he, Option.map_some', Option.some.injEq] at h
      subst h
      obtain ⟨hI, _, _, hms, _, _⟩ :=
        increment_tail_spec s 1 ⟨h1, h2⟩ (by simp only [size]; omega)
      exact ⟨hI, hms⟩
  | pushL l =>
    by_cases hg : free s < l.length
    · simp [applyOp, push_list, hg] at h
    · obtain ⟨s'', hps, _, hI, _, _, hms⟩ :=
        push_list_spec s l ⟨h1, h2⟩ (not_lt.mp hg)
      simp only [applyOp] at h
      rw [hps, Option.some.injEq] at h
      subst h
      exact ⟨hI, hms⟩
  | popL n0 =>
    by_cases hg : 0 < n0 ∧ size s < n0
    · simp [applyOp, pop_list, hg] at h
    · rw [applyOp, pop_list, if_neg hg] at h
      simp only [Option.map_some', Option.some.injEq] at h
      subst h
      obtain ⟨hI, _, _, hms, _, _⟩ :=
        increment_tail_spec s (if n0 = 0 then size s else n0) ⟨h1, h2⟩
          (by split <;> omega)
      exact ⟨hI, hms⟩
  | clear =>
    simp only [applyOp, Option.some.injEq] at h
    subst h
    exact ⟨⟨Nat.zero_le _, Nat.zero_le _⟩, rfl⟩
  | beginq =>
    simp only [applyOp, beginIter, Option.some.injEq] at h
    subst h
    exact ⟨⟨h1, h2⟩, rfl⟩
  | endq =>
    simp only [applyOp, endIter, Option.some.injEq] at h
    subst h
    refine ⟨⟨?_, ?_⟩, rfl⟩
    · show s.tail + size s ≤ s.head
      simp only [size]
      omega
    · show s.head ≤ s.tail + size s + s.storage.length
      simp only [size]
      omega

/-- Every successful public operation other than the consuming `endq`
additionally keeps the tail cursor inside `[0, N)`. -/
lemma invT_applyOp [Inhabited α] (s s' : Fifo α) (op : FOp α) (hInv : InvT s)
    (hop : op ≠ FOp.endq) (h : applyOp s op = some s') :
    InvT s' ∧ max_size s' = max_size s := by
  obtain ⟨hI, h3⟩ := hInv
  obtain ⟨h1, h2⟩ := hI
  obtain ⟨hI', hms⟩ := inv_applyOp s s' op ⟨h1, h2⟩ h
  refine ⟨⟨hI', ?_⟩, hms⟩
  rw [hms]
  cases op with
  | push v =>
    by_cases hf : full s
    · simp [applyOp, push, hf] at h
    · simp only [applyOp, push, if_neg hf, Option.some.injEq] at h
      subst h
      exact h3
  | pop =>
    by_cases he : s.head = s.tail
    · simp [applyOp, pop, he] at h
    · simp only [applyOp, pop, if_neg he, Option.map_some', Option.some.injEq] at h
      subst h
      exact (increment_tail_spec s 1 ⟨h1, h2⟩
        (by simp only [size]; omega)).2.2.2.2.1 h3
  | pushL l =>
    by_cases hg : free s < l.length
    · simp [applyOp, push_list, hg] at h
    · obtain ⟨s'', hps, _, _, htail, _, _⟩ :=
        push_list_spec s l ⟨h1, h2⟩ (not_lt.mp hg)
      simp only [applyOp] at h
      rw [hps, Option.some.injEq] at h
      subst h
      rw [htail]
      exact h3
  | popL n0 =>
    by_cases hg : 0 < n0 ∧ size s < n0
    · simp [applyOp, pop_list, hg] at h
    · rw [applyOp, pop_list, if_neg hg] at h
      simp only [Option.map_some', Option.some.injEq] at h
      subst h
      exact (increment_tail_spec s (if n0 = 0 then size s else n0) ⟨h1, h2⟩
        (by split <;> omega)).2.2.2.2.1 h3
  | clear =>
    simp only [applyOp, Option.some.injEq] at h
    subst h
    show 0 < max_size s
    omega
  | beginq =>
    simp only [applyOp, beginIter, Option.some.injEq] at h
    subst h
    exact h3
  | endq => exact absurd rfl hop

/-- Reachable states (with the consuming `endq` allowed) satisfy the
cursor invariant. -/
lemma reachable_inv [Inhabited α] (s : Fifo α) (h : Reachable s) : Inv s := by
  induction h with
  | start st => exact ⟨Nat.le_refl 0, Nat.zero_le _⟩
  | step op hr hap ih => exact (inv_applyOp _ _ op ih hap).1

/-- States reachable without `endq` additionally keep the tail cursor in
`[0, N)` whenever the capacity is positive. -/
lemma reachableCore_invT [Inhabited α] (s : Fifo α) (h : ReachableCore s) :
    Inv s ∧ (0 < max_size s → s.tail < max_size s) := by
  induction h with
  | start st => exact ⟨⟨Nat.le_refl 0, Nat.zero_le _⟩, fun hp => hp⟩
  | step op hr hne hap ih =>
    obtain ⟨hI, ht⟩ := ih
    obtain ⟨hI', hms⟩ := inv_applyOp _ _ op hI hap
    refine ⟨hI', ?_⟩
    intro hN'
    rw [hms] at hN'
    exact (invT_applyOp _ _ op ⟨hI, ht hN'⟩ hne hap).1.2

/-- Single-element operations, for comparing the fifo against the textbook
bounded-queue model. -/
inductive QOp (α : Type) where
  | push (v : α)
  | pop
deriving DecidableEq, Repr

/-- Textbook bounded queue of capacity `N` on lists: push appends at the
back when the queue is not full, pop removes at the front.  The second
component collects the value emitted by a pop. -/
def mstep (N : Nat) (l : List α) : QOp α → Option (List α × List α)
  | .push v => if l.length < N then some (l ++ [v], []) else none
  | .pop =>
    match l with
    | [] => none
    | x :: t => some (t, [x])

/-- Run a sequence of operations on the queue model, collecting outputs in
order; fails when any operation fails. -/
def mrun (N : Nat) : List (QOp α) → List α → Option (List α × List α)
  | [], l => some (l, [])
  | op :: ops, l =>
    (mstep N l op).bind fun p =>
      (mrun N ops p.1).map fun q => (q.1, p.2 ++ q.2)

/-- One single-element operation on the fifo, paired with its emitted
output. -/
def fstep [Inhabited α] (s : Fifo α) : QOp α → Option (Fifo α × List α)
  | .push v => (push s v).map fun s' => (s', [])
  | .pop => (pop s).map fun p => (p.2, [p.1])

/-- Run a sequence of single-element operations on the fifo, collecting
pop outputs in order; fails when any operation fails. -/
def frun [Inhabited α] : List (QOp α) → Fifo α → Option (Fifo α × List α)
  | [], s => some (s, [])
  | op :: ops, s =>
    (fstep s op).bind fun p =>
      (frun ops p.1).map fun q => (q.1, p.2 ++ q.2)

/-- Number of pushes in an operation sequence. -/
def countPush : List (QOp α) → Nat
  | [] => 0
  | QOp.push _ :: ops => countPush ops + 1
  | QOp.pop :: ops => countPush ops

/-- Number of pops in an operation sequence. -/
def countPop : List (QOp α) → Nat
  | [] => 0
  | QOp.push _ :: ops => countPop ops
  | QOp.pop :: ops => countPop ops + 1

lemma toList_eq_nil_iff [Inhabited α] (s : Fifo α) (hInv : Inv s) :
    toList s = [] ↔ s.head = s.tail := by
  rw [← List.length_eq_zero, toList_length]
  obtain ⟨h1, _⟩ := hInv
  simp only [size]
  omega

/-- One fifo step simulates one model step and preserves the invariant. -/
lemma fstep_sim [Inhabited α] (s : Fifo α) (op : QOp α) (hInv : InvT s) :
    (fstep s op).map (fun p => (toList p.1, p.2)) =
      mstep (max_size s) (toList s) op ∧
    ∀ s' out, fstep s op = some (s', out) →
      InvT s' ∧ max_size s' = max_size s := by
  obtain ⟨⟨h1, h2⟩, h3⟩ := hInv
  cases op with
  | push v =>
    by_cases hf : full s
    · have hsz : size s = max_size s := by
        simp only [full] at hf
        simp only [size]
        omega
      constructor
      · simp [fstep, push, hf, mstep, toList_length, hsz]
      · intro s' out hcon
        simp [fstep, push, hf] at hcon
    · obtain ⟨s', hps, htl, hI, htail, _, _, hms⟩ := push_spec s v ⟨h1, h2⟩ hf
      have hszlt : size s < max_size s := by
        simp only [full] at hf
        simp only [size]
        simp only [max_size] at h2 hf ⊢
        omega
      constructor
      · simp only [fstep, hps, Option.map_some', mstep]
        rw [if_pos (by rw [toList_length]; exact hszlt), htl]
      · intro s'' out heq
        rw [fstep, hps] at heq
        simp only [Option.map_some', Option.some.injEq, Prod.mk.injEq] at heq
        obtain ⟨rfl, _⟩ := heq
        exact ⟨⟨hI, by rw [hms, htail]; exact h3⟩, hms⟩
  | pop =>
    by_cases he : s.head = s.tail
    · have hnil : toList s = [] := (toList_eq_nil_iff s ⟨h1, h2⟩).mpr he
      constructor
      · simp [fstep, pop, he, mstep, hnil]
      · intro s' out hcon
        simp [fstep, pop, he] at hcon
    · obtain ⟨a, s', hps, htl, hI, hms, _, _⟩ := pop_spec s ⟨⟨h1, h2⟩, h3⟩ he
      constructor
      · simp only [fstep, hps, Option.map_some', mstep, htl]
      · intro s'' out heq
        rw [fstep, hps] at heq
        simp only [Option.map_some', Option.some.injEq, Prod.mk.injEq] at heq
        obtain ⟨rfl, _⟩ := heq
        exact ⟨hI, hms⟩

/-- Executing any operation sequence on the fifo gives exactly the result
of the bounded-queue model on the abstract contents: same success or
failure, same final contents, same outputs in the same order. -/
lemma frun_sim [Inhabited α] : ∀ (ops : List (QOp α)) (s : Fifo α), InvT s →
    (frun ops s).map (fun p => (toList p.1, p.2)) =
      mrun (max_size s) ops (toList s) ∧
    ∀ sf outs, frun ops s = some (sf, outs) →
      InvT sf ∧ max_size sf = max_size s := by
  intro ops
  induction ops with
  | nil =>
    intro s hI
    constructor
    · simp [frun, mrun]
    · intro sf outs h
      simp only [frun, Option.some.injEq, Prod.mk.injEq] at h
      obtain ⟨rfl, _⟩ := h
      exact ⟨hI, rfl⟩
  | cons op ops ih =>
    intro s hI
    obtain ⟨hstep, hpres⟩ := fstep_sim s op hI
    constructor
    · rw [frun, mrun]
      cases hfs : fstep s op with
      | none =>
        have hm : mstep (max_size s) (toList s) op = none := by
          rw [← hstep, hfs]
          rfl
        rw [hm]
        rfl
      | some p =>
        obtain ⟨s1, out⟩ := p
        have hm : mstep (max_size s) (toList s) op = some (toList s1, out) := by
          rw [← hstep, hfs]
          rfl
        rw [hm]
        obtain ⟨hI1, hms1⟩ := hpres s1 out hfs
        have ih1 := (ih s1 hI1).1
        rw [hms1] at ih1
        show Option.map (fun p => (toList p.1, p.2))
            ((frun ops s1).map fun q => (q.1, out ++ q.2))
          = (mrun (max_size s) ops (toList s1)).map fun q => (q.1, out ++ q.2)
        rw [← ih1]
        cases hfr : frun ops s1 with
        | none => rfl
        | some q => rfl
    · intro sf outs h
      rw [frun] at h
      cases hfs : fstep s op with
      | none =>
        rw [hfs] at h
        simp at h
      | some p =>
        rw [hfs] at h
        replace h : ((frun ops p.1).map fun q => (q.1, p.2 ++ q.2))
            = some (sf, outs) := h
        cases hfr : frun ops p.1 with
        | none =>
          rw [hfr] at h
          simp at h
        | some q =>
          rw [hfr] at h
          simp only [Option.map_some', Option.some.injEq, Prod.mk.injEq] at h
          obtain ⟨rfl, _⟩ := h
          obtain ⟨hIp, hmsp⟩ := hpres p.1 p.2 hfs
          obtain ⟨hIq, hmsq⟩ := (ih p.1 hIp).2 q.1 q.2 hfr
          exact ⟨hIq, by rw [hmsq, hmsp]⟩

/-- Bookkeeping: a successful model run grows the queue by exactly
pushes minus pops. -/
lemma mrun_length (N : Nat) : ∀ (ops : List (QOp α)) (l lf outs : List α),
    mrun N ops l = some (lf, outs) →
    lf.length + countPop ops = l.length + countPush ops ∧
    outs.length = countPop ops := by
  intro ops
  induction ops with
  | nil =>
    intro l lf outs h
    simp only [mrun, Option.some.injEq, Prod.mk.injEq] at h
    obtain ⟨rfl, rfl⟩ := h
    simp [countPush, countPop]
  | cons op ops ih =>
    intro l lf outs h
    rw [mrun] at h
    cases op with
    | push v =>
      rw [mstep] at h
      by_cases hc : l.length < N
      · rw [if_pos hc] at h
        replace h : ((mrun N ops (l ++ [v])).map fun q => (q.1, [] ++ q.2))
            = some (lf, outs) := h
        cases hm : mrun N ops (l ++ [v]) with
        | none => rw [hm] at h; simp at h
        | some q =>
          rw [hm] at h
          simp only [Option.map_some', Option.some.injEq, Prod.mk.injEq,
            List.nil_append] at h
          obtain ⟨rfl, rfl⟩ := h
          obtain ⟨hlen, houts⟩ := ih (l ++ [v]) q.1 q.2 hm
          simp only [List.length_append, List.length_cons, List.length_nil] at hlen
          simp only [countPush, countPop]
          omega
      · rw [if_neg hc] at h
        simp at h
    | pop =>
      cases l with
      | nil =>
        rw [mstep] at h
        simp at h
      | cons x t =>
        rw [mstep] at h
        replace h : ((mrun N ops t).map fun q => (q.1, [x] ++ q.2))
            = some (lf, outs) := h
        cases hm : mrun N ops t with
        | none => rw [hm] at h; simp at h
        | some q =>
          rw [hm] at h
          simp only [Option.map_some', Option.some.injEq, Prod.mk.injEq] at h
          obtain ⟨rfl, rfl⟩ := h
          obtain ⟨hlen, houts⟩ := ih t q.1 q.2 hm
          simp only [countPush, countPop, List.length_cons, List.length_append,
            List.length_nil, List.nil_append, List.singleton_append]
          omega

/-- Running a concatenation of operation sequences on the model. -/
lemma mrun_append (N : Nat) : ∀ (ops1 ops2 : List (QOp α)) (l : List α),
    mrun N (ops1 ++ ops2) l =
      (mrun N ops1 l).bind fun p =>
        (mrun N ops2 p.1).map fun q => (q.1, p.2 ++ q.2) := by
  intro ops1
  induction ops1 with
  | nil =>
    intro ops2 l
    rw [List.nil_append]
    show mrun N ops2 l = (mrun N ops2 l).map fun q => (q.1, [] ++ q.2)
    cases hm : mrun N ops2 l with
    | none => rfl
    | some q => simp
  | cons op ops ih =>
    intro ops2 l
    rw [List.cons_append, mrun, mrun]
    cases hs : mstep N l op with
    | none => rfl
    | some p =>
      obtain ⟨p1, p2⟩ := p
      show ((mrun N (ops ++ ops2) p1).map fun q => (q.1, p2 ++ q.2))
        = ((mrun N ops p1).map fun q => (q.1, p2 ++ q.2)).bind
            fun r => (mrun N ops2 r.1).map fun q => (q.1, r.2 ++ q.2)
      rw [ih ops2 p1]
      cases hr : mrun N ops p1 with
      | none => rfl
      | some r =>
        obtain ⟨r1, r2⟩ := r
        show ((mrun N ops2 r1).map fun q => (q.1, r2 ++ q.2)).map
            (fun q => (q.1, p2 ++ q.2))
          = (mrun N ops2 r1).map fun q => (q.1, (p2 ++ r2) ++ q.2)
        cases hq : mrun N ops2 r1 with
        | none => rfl
        | some q => simp [List.append_assoc]

/-- Pushing a block of values onto the model, starting anywhere with
enough room, appends the block and emits nothing. -/
lemma mrun_pushes (N : Nat) : ∀ (l acc : List α), acc.length + l.length ≤ N →
    mrun N (l.map QOp.push) acc = some (acc ++ l, []) := by
  intro l
  induction l with
  | nil => intro acc h; simp [mrun]
  | cons v t ih =>
    intro acc h
    simp only [List.length_cons] at h
    rw [List.map_cons, mrun, mstep, if_pos (by omega)]
    replace ih := ih (acc ++ [v]) (by simp; omega)
    show ((mrun N (t.map QOp.push) (acc ++ [v])).map fun q => (q.1, [] ++ q.2)) = _
    rw [ih]
    simp

/-- Popping exactly the current contents of the model drains it and emits
the contents in order. -/
lemma mrun_pops (N : Nat) : ∀ (l : List α),
    mrun N (List.replicate l.length QOp.pop) l = some ([], l) := by
  intro l
  induction l with
  | nil => simp [mrun]
  | cons x t ih =>
    rw [List.length_cons, List.replicate_succ, mrun, mstep]
    show ((mrun N (List.replicate t.length QOp.pop) t).map
      fun q => (q.1, [x] ++ q.2)) = _
    rw [ih]
    rfl

/-- Complete behaviour of the fifo against the textbook bounded queue:
(1) every operation sequence gives the same success/failure, the same
outputs in the same order, and abstract contents matching the queue model;
(2) after any successful run the size has grown by pushes minus pops and
every pop emitted one value; (3) from any empty state, pushing a block of
at most `N` values and popping the same number returns the block in order
and leaves the fifo empty with all capacity free. -/
def QueueBehaviorSpec [Inhabited α] (s : Fifo α) : Prop :=
  (∀ ops : List (QOp α),
    (frun ops s).map (fun p => (toList p.1, p.2)) =
      mrun (max_size s) ops (toList s)) ∧
  (∀ (ops : List (QOp α)) (sf : Fifo α) (outs : List α),
    frun ops s = some (sf, outs) →
      size sf + countPop ops = size s + countPush ops ∧
      outs.length = countPop ops) ∧
  (s.head = s.tail → ∀ l : List α, l.length ≤ max_size s →
    ∃ sf, frun (l.map QOp.push ++ List.replicate l.length QOp.pop) s
        = some (sf, l) ∧
      isEmpty sf ∧ free sf = max_size s)

/-
Claims.
-/

/-- C1: the spec says `get(n)` fails with OutOfRange exactly when
`n >= used`, in particular `get(0)` fails on an empty buffer.  The code
checks `n > m_used` (strict), an off-by-one: on a buffer with `used == 0`
and positive capacity, `get(0)` succeeds and returns the stale element at
physical index 0 instead of failing.  This theorem evaluates the code
model at that failing input. -/
theorem buffer_get_empty_succeeds :
    Buffer.get (⟨[7, 8, 9], 0⟩ : Buffer ℕ) 0 = some 7 := by
  decide

/-- C2 counterexample: the tail cursor does NOT always stay inside
`[0, N)`: the consuming end-of-iteration query (`end()`, modelled by
`endq`) advances `m_tail` by `size()` without normalizing, so after
(capacity 3) push 10, push 11, push 12, pop, push 13, end the state is
reachable with `tail = 4 >= 3 = N`. -/
theorem fifo_tail_exceeds_capacity_after_endq :
    Reachable (⟨[13, 11, 12], 4, 4⟩ : Fifo ℕ) ∧
    ¬ ((⟨[13, 11, 12], 4, 4⟩ : Fifo ℕ).tail
        < max_size (⟨[13, 11, 12], 4, 4⟩ : Fifo ℕ)) := by
  constructor
  · have r0 : Reachable (⟨[0, 0, 0], 0, 0⟩ : Fifo ℕ) := Reachable.start [0, 0, 0]
    have r1 : Reachable (⟨[10, 0, 0], 1, 0⟩ : Fifo ℕ) :=
      Reachable.step (FOp.push 10) r0 (by decide)
    have r2 : Reachable (⟨[10, 11, 0], 2, 0⟩ : Fifo ℕ) :=
      Reachable.step (FOp.push 11) r1 (by decide)
    have r3 : Reachable (⟨[10, 11, 12], 3, 0⟩ : Fifo ℕ) :=
      Reachable.step (FOp.push 12) r2 (by decide)
    have r4 : Reachable (⟨[10, 11, 12], 3, 1⟩ : Fifo ℕ) :=
      Reachable.step FOp.pop r3 (by decide)
    have r5 : Reachable (⟨[13, 11, 12], 4, 1⟩ : Fifo ℕ) :=
      Reachable.step (FOp.push 13) r4 (by decide)
    exact Reachable.step FOp.endq r5 (by decide)
  · decide

/-- C2 amended: for every state reachable by the public operations other
than the consuming end-of-iteration query (push, pop, pushList, popList,
clear, begin), and positive capacity, the tail cursor stays inside
`[0, N)`: whenever it would reach or exceed `N` it is reduced by `N`
together with `head` (see `increment_tail`). -/
theorem fifo_tail_lt_capacity_of_reachableCore [Inhabited α] (s : Fifo α)
    (h : ReachableCore s) (hN : 0 < max_size s) : s.tail < max_size s :=
  (reachableCore_invT s h).2 hN

/-- C2 amended, witness: after capacity-3 push 1, push 2, push 3, pop,
pop, pop the tail has wrapped back to 0 and is inside `[0, 3)`. -/
theorem fifo_tail_lt_capacity_witness :
    ReachableCore (⟨[1, 2, 3], 0, 0⟩ : Fifo ℕ) ∧
    0 < max_size (⟨[1, 2, 3], 0, 0⟩ : Fifo ℕ) ∧
    (⟨[1, 2, 3], 0, 0⟩ : Fifo ℕ).tail < max_size (⟨[1, 2, 3], 0, 0⟩ : Fifo ℕ) := by
  have r0 : ReachableCore (⟨[0, 0, 0], 0, 0⟩ : Fifo ℕ) :=
    ReachableCore.start [0, 0, 0]
  have r1 : ReachableCore (⟨[1, 0, 0], 1, 0⟩ : Fifo ℕ) :=
    ReachableCore.step (FOp.push 1) r0 (by decide) (by decide)
  have r2 : ReachableCore (⟨[1, 2, 0], 2, 0⟩ : Fifo ℕ) :=
    ReachableCore.step (FOp.push 2) r1 (by decide) (by decide)
  have r3 : ReachableCore (⟨[1, 2, 3], 3, 0⟩ : Fifo ℕ) :=
    ReachableCore.step (FOp.push 3) r2 (by decide) (by decide)
  have r4 : ReachableCore (⟨[1, 2, 3], 3, 1⟩ : Fifo ℕ) :=
    ReachableCore.step FOp.pop r3 (by decide) (by decide)
  have r5 : ReachableCore (⟨[1, 2, 3], 3, 2⟩ : Fifo ℕ) :=
    ReachableCore.step FOp.pop r4 (by decide) (by decide)
  have r6 : ReachableCore (⟨[1, 2, 3], 0, 0⟩ : Fifo ℕ) :=
    ReachableCore.step FOp.pop r5 (by decide) (by decide)
  exact ⟨r6, by decide,
    fifo_tail_lt_capacity_of_reachableCore _ r6 (by decide)⟩

/-- C3: the fifo behaves as a bounded FIFO queue on every state
satisfying the cursor invariant (hence in particular after the cursors
have wrapped past `N` any number of times): operation sequences simulate
the queue model exactly, sizes count pushes minus pops, and block
round-trips from an empty state return the block in order and restore
`empty` and `free == N`. -/
theorem fifo_queue_behavior [Inhabited α] (s : Fifo α) (hInv : InvT s) :
    QueueBehaviorSpec s := by
  refine ⟨?_, ?_, ?_⟩
  · intro ops
    exact (frun_sim ops s hInv).1
  · intro ops sf outs h
    have hsim := (frun_sim ops s hInv).1
    rw [h] at hsim
    obtain ⟨hlen, houts⟩ :=
      mrun_length (max_size s) ops (toList s) (toList sf) outs hsim.symm
    rw [toList_length, toList_length] at hlen
    exact ⟨by omega, houts⟩
  · intro he l hlen
    have hnil : toList s = [] := (toList_eq_nil_iff s hInv.1).mpr he
    have hm : mrun (max_size s) (l.map QOp.push ++ List.replicate l.length QOp.pop)
        (toList s) = some ([], l) := by
      rw [hnil, mrun_append, mrun_pushes (max_size s) l [] (by simpa using hlen)]
      show (mrun (max_size s) (List.replicate l.length QOp.pop) ([] ++ l)).map
        (fun q => (q.1, [] ++ q.2)) = some ([], l)
      rw [List.nil_append, mrun_pops]
      rfl
    have hsim := (frun_sim (l.map QOp.push ++ List.replicate l.length QOp.pop)
      s hInv).1
    rw [hm] at hsim
    cases hfr : frun (l.map QOp.push ++ List.replicate l.length QOp.pop) s with
    | none => rw [hfr] at hsim; simp at hsim
    | some p =>
      obtain ⟨sf, outs⟩ := p
      rw [hfr] at hsim
      simp only [Option.map_some', Option.some.injEq, Prod.mk.injEq] at hsim
      obtain ⟨hp1, hp2⟩ := hsim
      rw [hp2] at hfr
      obtain ⟨hIf, hms⟩ := (frun_sim _ s hInv).2 sf l hfr
      refine ⟨sf, by rw [hp2], ?_, ?_⟩
      · exact (toList_eq_nil_iff sf hIf.1).mp hp1
      · have hsz : size sf = 0 := by rw [← toList_length, hp1]; rfl
        show max_size sf - size sf = max_size s
        rw [hsz, Nat.sub_zero, hms]

/-- C3 witness: the queue behaviour specification holds for a freshly
constructed capacity-3 fifo. -/
theorem fifo_queue_behavior_witness :
    InvT (⟨[0, 0, 0], 0, 0⟩ : Fifo ℕ) ∧
    QueueBehaviorSpec (⟨[0, 0, 0], 0, 0⟩ : Fifo ℕ) :=
  ⟨by decide, fifo_queue_behavior _ (by decide)⟩

/-- C4: the bulk operations are all-or-nothing, with the range check
performed before any copy: `push_list` fails exactly when the block
exceeds `free()`, and `pop_list` with an explicit positive count fails
exactly when the count exceeds `size()`.  Failure produces no successor
state at all (the `Option` result models throw-before-mutation), so the
state is unchanged and no element is copied. -/
theorem fifo_bulk_all_or_nothing [Inhabited α] (s : Fifo α) (l : List α)
    (n : Nat) :
    (push_list s l = none ↔ free s < l.length) ∧
    (0 < n → (pop_list s n = none ↔ size s < n)) := by
  constructor
  · rw [push_list]
    by_cases hg : free s < l.length
    · simp [hg]
    · simp [hg]
  · intro hn
    rw [pop_list]
    by_cases hg : 0 < n ∧ size s < n
    · simp only [if_pos hg]
      simp [hg.2]
    · simp only [if_neg hg]
      constructor
      · intro h
        exact Option.noConfusion h
      · intro h
        exact absurd ⟨hn, h⟩ hg

/-- C4 witness: on a capacity-2 fifo holding one element, pushing a block
of two fails, and popping an explicit count of two fails. -/
theorem fifo_bulk_all_or_nothing_witness :
    (push_list (⟨[7, 0], 1, 0⟩ : Fifo ℕ) [5, 6] = none ↔
      free (⟨[7, 0], 1, 0⟩ : Fifo ℕ) < ([5, 6] : List ℕ).length) ∧
    (0 < 2 ∧
      (pop_list (⟨[7, 0], 1, 0⟩ : Fifo ℕ) 2 = none ↔
        size (⟨[7, 0], 1, 0⟩ : Fifo ℕ) < 2)) :=
  ⟨(fifo_bulk_all_or_nothing (⟨[7, 0], 1, 0⟩ : Fifo ℕ) [5, 6] 2).1,
   by decide,
   (fifo_bulk_all_or_nothing (⟨[7, 0], 1, 0⟩ : Fifo ℕ) [5, 6] 2).2 (by decide)⟩

/-- C5: `push` on a fifo whose size equals the capacity fails with
OutOfRange and produces no successor state (no slot is written, cursors
unchanged); on any non-full fifo it writes the value at physical slot
`head % N` and increments `head` by one without normalizing it. -/
theorem fifo_push_full_fails_nonfull_writes [Inhabited α] (s : Fifo α) (v : α) :
    (0 < max_size s → size s = max_size s → push s v = none) ∧
    (¬ full s → push s v =
      some ⟨s.storage.set (s.head % max_size s) v, s.head + 1, s.tail⟩) := by
  constructor
  · intro hN hsz
    have hf : full s := by
      simp only [size] at hsz
      simp only [full]
      omega
    rw [push, if_pos hf]
  · intro hnf
    rw [push, if_neg hnf]
    rfl

/-- C5 witness: on the full capacity-2 fifo `[1, 2]` a push fails; on the
half-full fifo `[1, 0]` pushing 9 writes slot `1 % 2` and bumps `head`. -/
theorem fifo_push_full_fails_nonfull_writes_witness :
    (0 < max_size (⟨[1, 2], 2, 0⟩ : Fifo ℕ) ∧
      size (⟨[1, 2], 2, 0⟩ : Fifo ℕ) = max_size (⟨[1, 2], 2, 0⟩ : Fifo ℕ) ∧
      push (⟨[1, 2], 2, 0⟩ : Fifo ℕ) 9 = none) ∧
    (¬ full (⟨[1, 0], 1, 0⟩ : Fifo ℕ) ∧
      push (⟨[1, 0], 1, 0⟩ : Fifo ℕ) 9 =
        some ⟨(⟨[1, 0], 1, 0⟩ : Fifo ℕ).storage.set
          ((⟨[1, 0], 1, 0⟩ : Fifo ℕ).head % max_size (⟨[1, 0], 1, 0⟩ : Fifo ℕ)) 9,
          (⟨[1, 0], 1, 0⟩ : Fifo ℕ).head + 1, (⟨[1, 0], 1, 0⟩ : Fifo ℕ).tail⟩) :=
  ⟨⟨by decide, by decide,
    (fifo_push_full_fails_nonfull_writes (⟨[1, 2], 2, 0⟩ : Fifo ℕ) 9).1
      (by decide) (by decide)⟩,
   ⟨by decide,
    (fifo_push_full_fails_nonfull_writes (⟨[1, 0], 1, 0⟩ : Fifo ℕ) 9).2
      (by decide)⟩⟩

/-- C6 counterexample: the claim quantifies over every state with
`free() >= k`, but `pop_list` removes the OLDEST elements, so on a
non-empty fifo (capacity 3 holding the single element 9, `free = 2 >= 2`)
pushing `[1, 2]` and popping 2 writes `[9, 1]`, not `[1, 2]`. -/
theorem fifo_pushlist_poplist_nonempty_cex :
    2 ≤ free (⟨[9, 0, 0], 1, 0⟩ : Fifo ℕ) ∧
    (push_list (⟨[9, 0, 0], 1, 0⟩ : Fifo ℕ) [1, 2]).bind
      (fun s' => pop_list s' 2) = some ([9, 1], ⟨[9, 1, 2], 3, 2⟩) ∧
    ([9, 1] : List ℕ) ≠ [1, 2] :=
  ⟨by decide, by decide, by decide⟩

/-- C6 amended: for every EMPTY fifo state (`head == tail`) satisfying
the cursor invariant and every block of at most `N` elements, `push_list`
of the block followed immediately by `pop_list` of the same count writes
exactly that block in order to the destination, including when the
transfer spans the physical wrap boundary. -/
theorem fifo_pushlist_poplist_roundtrip [Inhabited α] (s : Fifo α) (l : List α)
    (hInv : InvT s) (he : s.head = s.tail) (hlen : l.length ≤ max_size s) :
    ∃ s', push_list s l = some s' ∧
      ∃ s'', pop_list s' l.length = some (l, s'') := by
  have hnil : toList s = [] := (toList_eq_nil_iff s hInv.1).mpr he
  have hsz0 : size s = 0 := by rw [← toList_length, hnil]; rfl
  have hfree : l.length ≤ free s := by
    show l.length ≤ max_size s - size s
    omega
  obtain ⟨s', hps, htl, hI', htail, _, hms⟩ := push_list_spec s l hInv.1 hfree
  have hIT' : InvT s' := ⟨hI', by rw [hms, htail]; exact hInv.2⟩
  have hsz' : size s' = l.length := by
    rw [← toList_length, htl, hnil]
    simp
  have hn0 : l.length = 0 ∨ l.length ≤ size s' := by omega
  obtain ⟨out, s'', hpop, hout, _, _, _, _⟩ := pop_list_spec s' l.length hIT' hn0
  refine ⟨s', hps, s'', ?_⟩
  rw [hpop]
  have hpc : pop_count s' l.length = l.length := by
    unfold pop_count
    split <;> omega
  have hol : out = l := by
    rw [hout, hpc, htl, hnil, List.nil_append, List.take_length]
  rw [hol]

/-- C6 amended, witness: the round trip holds across the wrap boundary on
a capacity-5 fifo whose cursors sit at 4, pushing three elements. -/
theorem fifo_pushlist_poplist_roundtrip_witness :
    InvT (⟨[0, 0, 0, 0, 0], 4, 4⟩ : Fifo ℕ) ∧
    (⟨[0, 0, 0, 0, 0], 4, 4⟩ : Fifo ℕ).head = (⟨[0, 0, 0, 0, 0], 4, 4⟩ : Fifo ℕ).tail ∧
    ([1, 2, 3] : List ℕ).length ≤ max_size (⟨[0, 0, 0, 0, 0], 4, 4⟩ : Fifo ℕ) ∧
    ∃ s', push_list (⟨[0, 0, 0, 0, 0], 4, 4⟩ : Fifo ℕ) [1, 2, 3] = some s' ∧
      ∃ s'', pop_list s' ([1, 2, 3] : List ℕ).length = some ([1, 2, 3], s'') :=
  ⟨by decide, rfl, by decide,
   fifo_pushlist_poplist_roundtrip _ [1, 2, 3] (by decide) rfl (by decide)⟩

/-- C7: every state reachable from the initial state by any sequence of
public operations (including the consuming end query) satisfies
`0 <= head - tail <= N` (in ℕ: the cursors never cross and differ by at
most the capacity), `size()` equals `head - tail`, `full()` holds exactly
when `head - tail == N`, and `empty()` holds exactly when
`head == tail`. -/
theorem fifo_cursor_invariant [Inhabited α] (s : Fifo α) (h : Reachable s) :
    (s.tail ≤ s.head ∧ s.head - s.tail ≤ max_size s) ∧
    size s = s.head - s.tail ∧
    (full s ↔ s.head - s.tail = max_size s) ∧
    (isEmpty s ↔ s.head = s.tail) := by
  obtain ⟨h1, h2⟩ := reachable_inv s h
  refine ⟨⟨h1, by omega⟩, rfl, ?_, Iff.rfl⟩
  unfold full
  omega

/-- C7 witness: the invariant holds at a reachable state whose cursors
have wrapped once (capacity 2: push 1, push 2, pop, pop, push 3). -/
theorem fifo_cursor_invariant_witness :
    Reachable (⟨[3, 2], 1, 0⟩ : Fifo ℕ) ∧
    (((⟨[3, 2], 1, 0⟩ : Fifo ℕ).tail ≤ (⟨[3, 2], 1, 0⟩ : Fifo ℕ).head ∧
      (⟨[3, 2], 1, 0⟩ : Fifo ℕ).head - (⟨[3, 2], 1, 0⟩ : Fifo ℕ).tail
        ≤ max_size (⟨[3, 2], 1, 0⟩ : Fifo ℕ)) ∧
     size (⟨[3, 2], 1, 0⟩ : Fifo ℕ)
        = (⟨[3, 2], 1, 0⟩ : Fifo ℕ).head - (⟨[3, 2], 1, 0⟩ : Fifo ℕ).tail ∧
     (full (⟨[3, 2], 1, 0⟩ : Fifo ℕ) ↔
       (⟨[3, 2], 1, 0⟩ : Fifo ℕ).head - (⟨[3, 2], 1, 0⟩ : Fifo ℕ).tail
         = max_size (⟨[3, 2], 1, 0⟩ : Fifo ℕ)) ∧
     (isEmpty (⟨[3, 2], 1, 0⟩ : Fifo ℕ) ↔
       (⟨[3, 2], 1, 0⟩ : Fifo ℕ).head = (⟨[3, 2], 1, 0⟩ : Fifo ℕ).tail)) := by
  have r0 : Reachable (⟨[0, 0], 0, 0⟩ : Fifo ℕ) := Reachable.start [0, 0]
  have r1 : Reachable (⟨[1, 0], 1, 0⟩ : Fifo ℕ) :=
    Reachable.step (FOp.push 1) r0 (by decide)
  have r2 : Reachable (⟨[1, 2], 2, 0⟩ : Fifo ℕ) :=
    Reachable.step (FOp.push 2) r1 (by decide)
  have r3 : Reachable (⟨[1, 2], 2, 1⟩ : Fifo ℕ) :=
    Reachable.step FOp.pop r2 (by decide)
  have r4 : Reachable (⟨[1, 2], 0, 0⟩ : Fifo ℕ) :=
    Reachable.step FOp.pop r3 (by decide)
  have r5 : Reachable (⟨[3, 2], 1, 0⟩ : Fifo ℕ) :=
    Reachable.step (FOp.push 3) r4 (by decide)
  exact ⟨r5, fifo_cursor_invariant _ r5⟩

/-- C8: the implemented iteration is the consuming variant: `begin()`
returns the tail cursor and leaves the state untouched, while the
end-of-iteration query `end()` returns the head cursor and advances
`tail` by `size()` as a side effect, so afterwards tail equals head's
logical index and the queue is observably empty. -/
theorem fifo_end_query_consumes (s : Fifo α) :
    beginIter s = (s.tail, s) ∧
    (endIter s).1 = s.head ∧
    (endIter s).2.storage = s.storage ∧
    (endIter s).2.head = s.head ∧
    (endIter s).2.tail = s.tail + size s ∧
    (s.tail ≤ s.head → (endIter s).2.tail = s.head ∧ isEmpty (endIter s).2) := by
  refine ⟨rfl, rfl, rfl, rfl, rfl, ?_⟩
  intro h
  constructor
  · show s.tail + size s = s.head
    simp only [size]
    omega
  · show s.head = s.tail + size s
    simp only [size]
    omega

/-- C8 witness: a completed iteration pass over a fifo with one element
drains it. -/
theorem fifo_end_query_consumes_witness :
    (⟨[1, 2, 3], 2, 1⟩ : Fifo ℕ).tail ≤ (⟨[1, 2, 3], 2, 1⟩ : Fifo ℕ).head ∧
    ((endIter (⟨[1, 2, 3], 2, 1⟩ : Fifo ℕ)).2.tail
        = (⟨[1, 2, 3], 2, 1⟩ : Fifo ℕ).head ∧
      isEmpty (endIter (⟨[1, 2, 3], 2, 1⟩ : Fifo ℕ)).2) :=
  ⟨by decide,
   (fifo_end_query_consumes (⟨[1, 2, 3], 2, 1⟩ : Fifo ℕ)).2.2.2.2.2 (by decide)⟩

/-- C9: for every buffer and physical index `n < N`, `assign(n, v)`
succeeds, a following `get(n)` returns `v`, and the logical size right
after the assignment is `max(previous size, n + 1)`. -/
theorem buffer_assign_get_roundtrip (b : Buffer α) (n : Nat) (v : α)
    (h : n < Buffer.max_size b) :
    ∃ b', Buffer.assign b n v = some b' ∧ Buffer.get b' n = some v ∧
      Buffer.size b' = max (Buffer.size b) (n + 1) := by
  have hlen : n < b.storage.length := h
  refine ⟨⟨b.storage.set n v, max b.used (n + 1)⟩, ?_, ?_, rfl⟩
  · rw [Buffer.assign, if_pos hlen]
  · rw [Buffer.get, if_neg (show ¬ (max b.used (n + 1) < n) by omega)]
    exact List.getElem?_set_eq_of_lt v hlen

/-- C9 witness: assigning 42 at physical index 1 of an empty capacity-3
buffer makes `get 1` return 42 and the size jump to 2. -/
theorem buffer_assign_get_roundtrip_witness :
    1 < Buffer.max_size (⟨[0, 0, 0], 0⟩ : Buffer ℕ) ∧
    ∃ b', Buffer.assign (⟨[0, 0, 0], 0⟩ : Buffer ℕ) 1 42 = some b' ∧
      Buffer.get b' 1 = some 42 ∧
      Buffer.size b' = max (Buffer.size (⟨[0, 0, 0], 0⟩ : Buffer ℕ)) 2 :=
  ⟨by decide, buffer_assign_get_roundtrip (⟨[0, 0, 0], 0⟩ : Buffer ℕ) 1 42 (by decide)⟩

/-- C10: the two `pop` implementations in the repository — variant A,
which normalizes via `increment_tail` (subtracting `N` from both
cursors), and variant B, which sets `tail = 0` and subtracts `N` from
`head` when the tail reaches `N` — return the same element and produce
the same head and tail on every reachable non-empty state (reachability
through the operations both variants share keeps `tail < N`, where the
two normalizations coincide). -/
theorem fifo_pop_variants_agree [Inhabited α] (s : Fifo α)
    (h : ReachableCore s) (hne : s.head ≠ s.tail) : pop_b s = pop s := by
  obtain ⟨⟨h1, h2⟩, ht⟩ := reachableCore_invT s h
  have hN : 0 < max_size s := by
    by_contra hc
    exact hne (by omega)
  have htail : s.tail < max_size s := ht hN
  rw [pop, pop_b, if_neg hne, if_neg hne]
  unfold increment_tail
  by_cases hc : max_size s ≤ s.tail + 1
  · rw [if_pos hc, if_pos hc]
    have h0 : s.tail + 1 - max_size s = 0 := by omega
    rw [h0]
  · rw [if_neg hc, if_neg hc]

/-- C10 witness: both pop variants agree on the reachable one-element
capacity-2 fifo. -/
theorem fifo_pop_variants_agree_witness :
    ReachableCore (⟨[5, 0], 1, 0⟩ : Fifo ℕ) ∧
    (⟨[5, 0], 1, 0⟩ : Fifo ℕ).head ≠ (⟨[5, 0], 1, 0⟩ : Fifo ℕ).tail ∧
    pop_b (⟨[5, 0], 1, 0⟩ : Fifo ℕ) = pop (⟨[5, 0], 1, 0⟩ : Fifo ℕ) := by
  have r0 : ReachableCore (⟨[0, 0], 0, 0⟩ : Fifo ℕ) := ReachableCore.start [0, 0]
  have r1 : ReachableCore (⟨[5, 0], 1, 0⟩ : Fifo ℕ) :=
    ReachableCore.step (FOp.push 5) r0 (by decide) (by decide)
  exact ⟨r1, by decide, fifo_pop_variants_agree _ r1 (by decide)⟩

end CC
